import Mathlib

/-!
Shallow embedding of `src/blockchain.js` (class `Blockchain`) from the
private-blockchain project, together with the parts of the external `Block`
collaborator (`block.js`, not present in the sources) that the spec
describes.  JavaScript promise-based methods are embedded as pure functions:
a method that mutates `this` returns the new `Blockchain` state explicitly,
and a promise outcome is a sum type (`Except` / a bespoke result inductive)
whose `error` side is the rejection reason.

The SHA256 hash of `JSON.stringify(block)` is abstracted as a function
parameter `hashFn` over the block's fields other than `hash` itself (the
`hash` field is `null` at the moment the digest is taken, so it never
contributes to its own input).  Wall-clock reads are passed in as explicit
parameters (`now` for the string `new Date().getTime().toString().slice(0,-3)`
stored in `block.time`, `currentTime` for the integer parsed from it in
`submitStar`).
-/

/-- Payload stored in a star block by `submitStar`:
`\x7b address, message, signature, star \x7d`. -/
structure StarPayload where
  address : String
  message : String
  signature : String
  star : String
deriving DecidableEq, Repr

/-- Body of a block.  `plain` covers payloads such as the genesis payload
`\x7b data: 'Genesis Block' \x7d`; `starData` is the payload built by
`submitStar`. -/
inductive BlockBody where
  | plain (data : String)
  | starData (p : StarPayload)
deriving DecidableEq, Repr

/-- A block record.  Fields absent in JavaScript (`undefined`/`null`) are
`none`.  `height` is an `Int` because the store's height counter starts
at `-1`. -/
structure Block where
  body : BlockBody
  time : String
  height : Int
  previousBlockHash : Option String
  hash : Option String
deriving DecidableEq, Repr

/-- Modelled from the spec: the `Block` constructor of the missing
`block.js` produces "an immutable-after-creation record holding a payload"
with only the payload populated; linkage fields, height, time and hash are
absent until admission. -/
def Block.new (body : BlockBody) : Block :=
  { body := body, time := "", height := 0, previousBlockHash := none,
    hash := none }

/-- The Chain Store: `this.chain` and `this.height` of class `Blockchain`. -/
structure Blockchain where
  chain : List Block
  height : Int
deriving DecidableEq, Repr

/-- Abstract stand-in for `SHA256(JSON.stringify(block)).toString()`: a
digest of the block's other fields (`hash` is `null` when the digest is
taken, hence excluded). -/
def HashFn : Type :=
  Int → String → BlockBody → Option String → String

/-- JavaScript truthiness of the `hash` field as used by
`!previousBlock.hash`: `undefined`, `null` and `""` are falsy. -/
def jsTruthyHash : Option String → Bool
  | none => false
  | some s => s ≠ ""

/-- Result of `_addBlock`: the promise resolves with the added block, or
with the `Blockchain` object itself (`resolve(self)`) in the genesis
branch. -/
inductive AddResult where
  | chainHandle (bc : Blockchain)
  | addedBlock (b : Block)
deriving DecidableEq, Repr

/-- Embedding of `Blockchain.prototype._addBlock` (blockchain.js lines
63-93).  `now` is the wall-clock string assigned to `block.time`. -/
def addBlock (hashFn : HashFn) (now : String) (st : Blockchain)
    (block : Block) : AddResult × Blockchain :=
  if st.chain = [] then
    let b1 : Block := { block with time := now, height := 0 }
    let h := hashFn b1.height b1.time b1.body b1.previousBlockHash
    let b2 : Block := { b1 with hash := some h }
    let st' : Blockchain := { chain := st.chain ++ [b2], height := 0 }
    (AddResult.chainHandle st', st')
  else
    let b1 : Block := { block with time := now }
    let previousBlock := st.chain.find? (fun b => b.height = st.height)
    let b2 : Block :=
      match previousBlock with
      | none => b1
      | some pb =>
          if jsTruthyHash pb.hash then { b1 with previousBlockHash := pb.hash }
          else b1
    let b3 : Block := { b2 with height := st.height + 1 }
    let h := hashFn b3.height b3.time b3.body b3.previousBlockHash
    let b4 : Block := { b3 with hash := some h }
    let st' : Blockchain := { chain := st.chain ++ [b4],
                              height := st.height + 1 }
    (AddResult.addedBlock b4, st')

/-- Modelled from the spec: `Block.prototype.validate` of the missing
`block.js` "recomputes its hash from its own fields and compares to its
stored `hash`" (the stored `hash` field being excluded from the digest's
input). -/
def Block.validate (hashFn : HashFn) (b : Block) : Bool :=
  b.hash = some (hashFn b.height b.time b.body b.previousBlockHash)

/-- One entry of `validateChain`'s `errorLog`: either the
`'Block data was tempered'` record or the
`"Previous block hash doesn't match..."` record with its
`hashOnPreviousBlock` field. -/
inductive Discrepancy where
  | tampered (invalidBlock : Block)
  | brokenLink (hashOnPreviousBlock : Option String) (invalidBlock : Block)
deriving DecidableEq, Repr

/-- The loop body of `validateChain` (blockchain.js lines 233-255): walk the
chain carrying the mutable variable `previousBlockHash` (initially the
string `''`).  For a self-valid block the variable is reassigned to the
block's own `previousBlockHash` field first, and the linkage comparison is
made against the reassigned value. -/
def validateChainLoop (hashFn : HashFn) :
    List Block → Option String → List Discrepancy
  | [], _ => []
  | b :: rest, prev =>
    if b.validate hashFn then
      let prev' := b.previousBlockHash
      if b.height > 0 ∧ b.previousBlockHash ≠ prev' then
        Discrepancy.brokenLink prev' b :: validateChainLoop hashFn rest prev'
      else
        validateChainLoop hashFn rest prev'
    else
      Discrepancy.tampered b :: validateChainLoop hashFn rest prev

/-- Outcome of the `validateChain` promise: `resolved` with the success
string, or `rejected` with the accumulated error log. -/
inductive ValidateResult where
  | resolved (msg : String)
  | rejected (errorLog : List Discrepancy)
deriving DecidableEq, Repr

/-- Embedding of `Blockchain.prototype.validateChain` (blockchain.js lines
229-261): run the loop, then `reject(errorLog)` when the log is non-empty,
else `resolve('Chain is valid')`. -/
def validateChain (hashFn : HashFn) (st : Blockchain) : ValidateResult :=
  let errorLog := validateChainLoop hashFn st.chain (some "")
  if errorLog ≠ [] then ValidateResult.rejected errorLog
  else ValidateResult.resolved "Chain is valid"

/-- The Chain Validator algorithm as WORDED by the spec (section 4.3), for
comparison with `validateChainLoop`: compare the block's recorded
`previousHash` against the `expectedPreviousHash` carried forward from the
previous iteration, and only then advance `expectedPreviousHash` to the
current block's `previousHash` field; after a block that fails
self-validation the variable is not advanced. -/
def specValidateChainLoop (hashFn : HashFn) :
    List Block → Option String → List Discrepancy
  | [], _ => []
  | b :: rest, expected =>
    if b.validate hashFn then
      if b.height > 0 ∧ b.previousBlockHash ≠ expected then
        Discrepancy.brokenLink expected b ::
          specValidateChainLoop hashFn rest b.previousBlockHash
      else
        specValidateChainLoop hashFn rest b.previousBlockHash
    else
      Discrepancy.tampered b :: specValidateChainLoop hashFn rest expected

/-- JavaScript whitespace skipped by `parseInt` before the number. -/
def isJsSpace (c : Char) : Bool :=
  c = ' ' ∨ c = '\t' ∨ c = '\n' ∨ c = '\r' ∨ c = '\x0b' ∨ c = '\x0c'

/-- Value of a hexadecimal digit character, `none` otherwise. -/
def hexDigitVal (c : Char) : Option Nat :=
  if '0' ≤ c ∧ c ≤ '9' then some (c.toNat - 48)
  else if 'a' ≤ c ∧ c ≤ 'f' then some (c.toNat - 87)
  else if 'A' ≤ c ∧ c ≤ 'F' then some (c.toNat - 55)
  else none

/-- Value of a decimal digit character, `none` otherwise. -/
def decDigitVal (c : Char) : Option Nat :=
  if '0' ≤ c ∧ c ≤ '9' then some (c.toNat - 48) else none

/-- Accumulate the longest prefix of digits (under digit reader `dv`) into a
numeral in the given base, stopping at the first non-digit. -/
def parseDigitsAux (dv : Char → Option Nat) (base : Nat) :
    List Char → Nat → Nat
  | [], acc => acc
  | c :: rest, acc =>
    match dv c with
    | some d => parseDigitsAux dv base rest (acc * base + d)
    | none => acc

/-- Parse the magnitude after an optional sign, as JavaScript `parseInt`
with no radix argument: a `0x`/`0X` prefix selects base 16, otherwise
base 10; `none` (`NaN`) when no digit follows. -/
def js_parseIntSigned (sgn : Int) : List Char → Option Int
  | '0' :: 'x' :: rest =>
    match hexDigitVal (rest.headD ' ') with
    | some _ => some (sgn * (parseDigitsAux hexDigitVal 16 rest 0 : Nat))
    | none => none
  | '0' :: 'X' :: rest =>
    match hexDigitVal (rest.headD ' ') with
    | some _ => some (sgn * (parseDigitsAux hexDigitVal 16 rest 0 : Nat))
    | none => none
  | cs =>
    match decDigitVal (cs.headD ' ') with
    | some _ => some (sgn * (parseDigitsAux decDigitVal 10 cs 0 : Nat))
    | none => none

/-- JavaScript `parseInt(s)` (no radix argument): skip leading whitespace,
read an optional sign, then the longest digit prefix; `none` is `NaN`. -/
def js_parseInt (s : String) : Option Int :=
  match s.data.dropWhile isJsSpace with
  | '-' :: rest => js_parseIntSigned (-1) rest
  | '+' :: rest => js_parseIntSigned 1 rest
  | cs => js_parseIntSigned 1 cs

/-- Embedding of `requestMessageOwnershipVerification` (blockchain.js lines
106-114): resolves with `address:now:starRegistry`. -/
def requestMessageOwnershipVerification (now : String)
    (address : String) : String :=
  address ++ ":" ++ now ++ ":starRegistry"

/-- JavaScript `String.prototype.split` with a single-character separator,
over the underlying character list: the empty string yields one empty
group, and every occurrence of the separator opens a new group. -/
def jsSplitChars (sep : Char) : List Char → List (List Char)
  | [] => [[]]
  | c :: rest =>
    let r := jsSplitChars sep rest
    if c = sep then [] :: r
    else
      match r with
      | [] => [[c]]
      | g :: gs => (c :: g) :: gs

/-- JavaScript `s.split(sep)` for a one-character separator, as used by
`message.split(':')` in `submitStar`. -/
def jsSplit (sep : Char) (s : String) : List String :=
  (jsSplitChars sep s.data).map String.mk

/-- Outcome of the `submitStar` promise: the three rejection reasons
(`'Incorrect message format'`, `'Incorrect time'`,
`'Bitcoin message unverified.'`) or resolution with what `_addBlock`
resolved with. -/
inductive SubmitResult where
  | badFormat
  | badTime
  | badSig
  | ok (r : AddResult)
deriving DecidableEq, Repr

/-- Embedding of `Blockchain.prototype.submitStar` (blockchain.js lines
133-163).  `verify` abstracts `bitcoinMessage.verify(message, address,
signature)`; `currentTime` is the integer parsed from the wall clock, `now`
the wall-clock string later stored in the block's `time` field.  The guard
`if (messageTime && currentTime - messageTime < 300)` reads `messageTime`
for JavaScript truthiness: `NaN` (`none`) and `0` are falsy, every other
integer — negative ones included — is truthy. -/
def submitStar (hashFn : HashFn) (verify : String → String → String → Bool)
    (currentTime : Nat) (now : String)
    (address message signature star : String) (st : Blockchain) :
    SubmitResult × Blockchain :=
  let messageComponents := jsSplit ':' message
  if messageComponents.length = 3 then
    match js_parseInt (messageComponents.getD 1 "") with
    | some mt =>
      if mt ≠ 0 ∧ (currentTime : Int) - mt < 300 then
        if verify message address signature then
          let blockData : StarPayload :=
            { address := address, message := message,
              signature := signature, star := star }
          let block := Block.new (BlockBody.starData blockData)
          let rs := addBlock hashFn now st block
          (SubmitResult.ok rs.1, rs.2)
        else (SubmitResult.badSig, st)
      else (SubmitResult.badTime, st)
    | none => (SubmitResult.badTime, st)
  else (SubmitResult.badFormat, st)

/-- Decoded body of a block, as consumed by `getStarsByWalletAddress`:
an `address` field (possibly absent, e.g. for the genesis payload) and the
star data. -/
structure BData where
  address : Option String
  star : String
deriving DecidableEq, Repr

/-- One element of the list resolved by `getStarsByWalletAddress`:
`\x7b owner: data.address, star: data.star \x7d`. -/
structure StarRecord where
  owner : String
  star : String
deriving DecidableEq, Repr

/-- The accumulation performed by `getStarsByWalletAddress` over the chain:
decode each block (`getBData`, modelled from the spec since `block.js` is
not in the sources: decoding "may itself fail per-block", a failed or empty
decode is `none` and is skipped), and push `\x7b owner, star \x7d` whenever
the decoded `address` strictly equals the queried one. -/
def collectStars (getBData : Block → Option BData) (address : String) :
    List Block → List StarRecord
  | [] => []
  | b :: rest =>
    match getBData b with
    | some d =>
      if d.address = some address then
        { owner := address, star := d.star } ::
          collectStars getBData address rest
      else collectStars getBData address rest
    | none => collectStars getBData address rest

/-- Embedding of `Blockchain.prototype.getStarsByWalletAddress`
(blockchain.js lines 204-221): the list the caller observes once every
per-block decode has settled. -/
def getStarsByWalletAddress (getBData : Block → Option BData)
    (address : String) (st : Blockchain) : List StarRecord :=
  collectStars getBData address st.chain

/-- Recognizer for the broken-linkage kind of discrepancy. -/
def Discrepancy.isBrokenLink : Discrepancy → Bool
  | brokenLink _ _ => true
  | tampered _ => false

/-- A concrete digest function for concrete evaluations: every block
digests to `"H"`. -/
def exHash : HashFn := fun _ _ _ _ => "H"

/-- A concrete self-valid genesis block under `exHash`. -/
def exB0 : Block :=
  { body := BlockBody.plain "Genesis Block", time := "t0", height := 0,
    previousBlockHash := none, hash := some "H" }

/-- A concrete self-valid block at height 1 whose recorded
`previousBlockHash` (`"X"`) differs from `exB0`'s `previousBlockHash`
(absent) and from `exB0`'s hash (`"H"`). -/
def exB1 : Block :=
  { body := BlockBody.plain "star block", time := "t1", height := 1,
    previousBlockHash := some "X", hash := some "H" }

/-- A concrete block whose stored hash (`"W"`) differs from its recomputed
digest (`"H"`), i.e. a block failing self-validation. -/
def exTampered : Block :=
  { body := BlockBody.plain "Genesis Block", time := "t0", height := 0,
    previousBlockHash := none, hash := some "W" }

/-- A concrete one-block store: the `exHash` genesis state. -/
def exSt1 : Blockchain := { chain := [exB0], height := 0 }

/-- A concrete payload-only block, as the `Block` constructor produces. -/
def exBlk : Block := Block.new (BlockBody.plain "payload")

/-- The concrete admission of `exBlk` into the one-block store `exSt1`. -/
def exAdd : AddResult × Blockchain := addBlock exHash "t1" exSt1 exBlk

/-- States of the Chain Store produced by the class: the constructor makes
the empty store and immediately admits the genesis block
(`initializeChain`), and every later mutation goes through `_addBlock`
with a freshly constructed, payload-only block. -/
inductive Reachable (hashFn : HashFn) : Blockchain → Prop where
  | init (now : String) :
      Reachable hashFn
        (addBlock hashFn now { chain := [], height := -1 }
          (Block.new (BlockBody.plain "Genesis Block"))).2
  | step (now : String) (body : BlockBody) (st : Blockchain) :
      Reachable hashFn st →
      Reachable hashFn (addBlock hashFn now st (Block.new body)).2

/-- Heights of the listed blocks are consecutive starting at `k`. -/
def HeightsFrom : Int → List Block → Prop
  | _, [] => True
  | k, b :: rest => b.height = k ∧ HeightsFrom (k + 1) rest

/-- Every listed block records the hash of the block before it, starting
from `a`. -/
def LinkedAfter : Block → List Block → Prop
  | _, [] => True
  | a, c :: rest => c.previousBlockHash = a.hash ∧ LinkedAfter c rest

/-- The last of `a :: l`. -/
def lastOf : Block → List Block → Block
  | a, [] => a
  | _, c :: rest => lastOf c rest

/-- Invariant carried through the induction on reachable states: the chain
is non-empty, the height counter tracks the length, heights start at 0 and
increase by one, the head is a genesis block without `previousBlockHash`,
each block records the previous block's hash, and every stored hash is a
present, non-empty digest. -/
def StrongInv (st : Blockchain) : Prop :=
  st.height = (st.chain.length : Int) - 1 ∧
  HeightsFrom 0 st.chain ∧
  (∀ g, st.chain.head? = some g → g.height = 0 ∧ g.previousBlockHash = none) ∧
  (match st.chain with
   | [] => False
   | a :: rest => LinkedAfter a rest) ∧
  (∀ b ∈ st.chain, ∃ s, b.hash = some s ∧ s ≠ "")

/-- A concrete two-block reachable store: genesis then one payload block,
under `exHash`. -/
def exSt2 : Blockchain :=
  (addBlock exHash "t1"
    (addBlock exHash "t0" { chain := [], height := -1 }
      (Block.new (BlockBody.plain "Genesis Block"))).2
    (Block.new (BlockBody.plain "payload"))).2

theorem validateChainLoop_eq_tampered (hashFn : HashFn) (l : List Block) :
    ∀ prev : Option String,
      validateChainLoop hashFn l prev =
        (l.filter (fun b => ! b.validate hashFn)).map Discrepancy.tampered := by
  induction l with
  | nil => intro prev; rfl
  | cons b rest ih =>
    intro prev
    by_cases hv : b.validate hashFn
    · simp [validateChainLoop, hv, ih]
    · simp [validateChainLoop, hv, ih]

/-- C1: the claim is false on the code.  Under the spec-worded walk
(`specValidateChainLoop`, compare against the carried-forward expectation,
then advance) the chain `[exB0, exB1]` — whose second block self-validates,
has height 1 and records a `previousBlockHash` that differs from the
expectation carried from the genesis block — yields one broken-linkage
discrepancy; the code's `validateChain` records none and resolves with
`'Chain is valid'`, because the loop variable is reassigned from the
current block before the comparison. -/
theorem validateChain_broken_linkage_claim_false :
    Block.validate exHash exB1 = true ∧
    exB1.height > 0 ∧
    specValidateChainLoop exHash [exB0, exB1] (some "") =
      [Discrepancy.brokenLink none exB1] ∧
    validateChain exHash { chain := [exB0, exB1], height := 1 } =
      ValidateResult.resolved "Chain is valid" := by
  decide

/-- C1 (amended): for every chain and every initial value of the loop
variable, `validateChain`'s error log is exactly one tampered-data
discrepancy per block failing self-validation, in chain-traversal order; no
broken-linkage discrepancy is ever recorded, because `previousBlockHash` is
reassigned from the current block's own field immediately before the
linkage comparison. -/
theorem validateChain_only_tampered_discrepancies (hashFn : HashFn)
    (st : Blockchain) (prev : Option String) :
    validateChainLoop hashFn st.chain prev =
      (st.chain.filter (fun b => ! b.validate hashFn)).map
        Discrepancy.tampered :=
  validateChainLoop_eq_tampered hashFn st.chain prev

/-- C2: for every digest function and every chain contents, the error log
built by `validateChain` contains no broken-linkage entry: the
broken-linkage branch is unreachable since the expected-previous-hash
variable is assigned the current block's own `previousBlockHash`
immediately before being compared to that same field. -/
theorem validateChain_brokenLink_unreachable (hashFn : HashFn)
    (st : Blockchain) :
    (validateChainLoop hashFn st.chain (some "")).filter
      Discrepancy.isBrokenLink = [] := by
  simp [validateChainLoop_eq_tampered, List.filter_map, Function.comp_def,
    Discrepancy.isBrokenLink]

/-- C4: `_addBlock`, given a block with only its payload populated (its
`previousBlockHash` and `hash` absent): on a non-empty store it links the
block to the hash of the block found at the store's current height
(proceeding without linking when no such block is found), sets the block's
height to current height + 1 and its time to the wall-clock string,
computes and assigns the digest over its other fields, appends it, bumps
the store height and resolves with the appended block; on an empty store it
produces the genesis block at height 0 with `previousHash` still absent
and resolves with the Chain Store handle. -/
theorem addBlock_contract (hashFn : HashFn) (now : String) (st : Blockchain)
    (blk : Block) (hprev : blk.previousBlockHash = none)
    (hhash : blk.hash = none) :
    (st.chain = [] →
      (addBlock hashFn now st blk).1 =
        AddResult.chainHandle (addBlock hashFn now st blk).2 ∧
      (addBlock hashFn now st blk).2.chain =
        [{ blk with time := now, height := 0,
                    hash := some (hashFn 0 now blk.body none) }] ∧
      (addBlock hashFn now st blk).2.height = 0) ∧
    (st.chain ≠ [] →
      ∃ b : Block,
        (addBlock hashFn now st blk).1 = AddResult.addedBlock b ∧
        (addBlock hashFn now st blk).2.chain = st.chain ++ [b] ∧
        (addBlock hashFn now st blk).2.height = st.height + 1 ∧
        b.height = st.height + 1 ∧
        b.time = now ∧
        b.body = blk.body ∧
        b.hash = some (hashFn b.height b.time b.body b.previousBlockHash) ∧
        (∀ pb, st.chain.find? (fun x => x.height = st.height) = some pb →
          jsTruthyHash pb.hash = true → b.previousBlockHash = pb.hash) ∧
        (st.chain.find? (fun x => x.height = st.height) = none →
          b.previousBlockHash = none)) := by
  constructor
  · intro h
    simp [addBlock, h, hprev]
  · intro h
    rcases hf : st.chain.find? (fun x => x.height = st.height) with _ | pb
    · simp only [addBlock, if_neg h, hf]
      refine ⟨_, rfl, rfl, trivial, rfl, rfl, rfl, rfl, ?_, ?_⟩
      · intro pb hpb
        cases hpb
      · intro _
        exact hprev
    · cases hj : jsTruthyHash pb.hash
      · simp only [addBlock, if_neg h, hf, hj, if_neg Bool.false_ne_true]
        refine ⟨_, rfl, rfl, trivial, rfl, rfl, rfl, rfl, ?_, ?_⟩
        · intro pb' hpb' htr
          cases hpb'
          simp [hj] at htr
        · intro hc
          exact hprev
      · simp only [addBlock, if_neg h, hf, hj, if_pos rfl]
        refine ⟨_, rfl, rfl, trivial, rfl, rfl, rfl, rfl, ?_, ?_⟩
        · intro pb' hpb' _
          cases hpb'
          rfl
        · intro hc
          simp at hc

/-- C4 witness: the contract applied at a concrete one-block store, a fresh
payload-only block and the concrete digest function `exHash`. -/
theorem addBlock_contract_witness :
    exBlk.previousBlockHash = none ∧ exBlk.hash = none ∧
    ((exSt1.chain = [] →
      exAdd.1 = AddResult.chainHandle exAdd.2 ∧
      exAdd.2.chain =
        [{ exBlk with time := "t1", height := 0,
                      hash := some (exHash 0 "t1" exBlk.body none) }] ∧
      exAdd.2.height = 0) ∧
    (exSt1.chain ≠ [] →
      ∃ b : Block,
        exAdd.1 = AddResult.addedBlock b ∧
        exAdd.2.chain = exSt1.chain ++ [b] ∧
        exAdd.2.height = exSt1.height + 1 ∧
        b.height = exSt1.height + 1 ∧
        b.time = "t1" ∧
        b.body = exBlk.body ∧
        b.hash = some (exHash b.height b.time b.body b.previousBlockHash) ∧
        (∀ pb, exSt1.chain.find? (fun x => x.height = exSt1.height) =
            some pb →
          jsTruthyHash pb.hash = true → b.previousBlockHash = pb.hash) ∧
        (exSt1.chain.find? (fun x => x.height = exSt1.height) = none →
          b.previousBlockHash = none))) :=
  ⟨rfl, rfl, addBlock_contract exHash "t1" exSt1 exBlk rfl rfl⟩

theorem HeightsFrom_append (b : Block) :
    ∀ (l : List Block) (k : Int), HeightsFrom k l →
      b.height = k + l.length → HeightsFrom k (l ++ [b]) := by
  intro l
  induction l with
  | nil =>
    intro k _ hb
    exact ⟨by simpa using hb, trivial⟩
  | cons c rest ih =>
    intro k hk hb
    refine ⟨hk.1, ih (k + 1) hk.2 ?_⟩
    simp only [List.length_cons] at hb
    push_cast at hb ⊢
    omega

theorem LinkedAfter_append (b : Block) :
    ∀ (l : List Block) (a : Block), LinkedAfter a l →
      b.previousBlockHash = (lastOf a l).hash → LinkedAfter a (l ++ [b]) := by
  intro l
  induction l with
  | nil =>
    intro a _ hb
    exact ⟨hb, trivial⟩
  | cons c rest ih =>
    intro a hl hb
    exact ⟨hl.1, ih c hl.2 hb⟩

theorem lastOf_mem : ∀ (l : List Block) (a : Block), lastOf a l ∈ a :: l := by
  intro l
  induction l with
  | nil => intro a; exact List.mem_singleton.mpr rfl
  | cons c rest ih =>
    intro a
    exact List.mem_cons_of_mem a (ih c)

theorem find?_height_eq_last :
    ∀ (l : List Block) (a : Block) (k n : Int), HeightsFrom k (a :: l) →
      n = k + l.length →
      (a :: l).find? (fun x => x.height = n) = some (lastOf a l) := by
  intro l
  induction l with
  | nil =>
    intro a k n hh hn
    have ha : a.height = n := by
      simpa [hn] using hh.1
    simp [List.find?, lastOf, ha]
  | cons c rest ih =>
    intro a k n hh hn
    have ha : ¬ a.height = n := by
      have h1 : a.height = k := hh.1
      simp only [List.length_cons] at hn
      push_cast at hn
      omega
    have hrec := ih c (k + 1) n hh.2 (by
      simp only [List.length_cons] at hn
      push_cast at hn ⊢
      omega)
    simpa [List.find?, ha] using hrec

theorem strongInv_addBlock (hashFn : HashFn)
    (hne : ∀ h t b p, hashFn h t b p ≠ "") (now : String) (st : Blockchain)
    (hinv : StrongInv st) (body : BlockBody) :
    StrongInv (addBlock hashFn now st (Block.new body)).2 := by
  obtain ⟨hht, hhf, hhd, hlk, hho⟩ := hinv
  rcases hc : st.chain with _ | ⟨a, rest⟩
  · rw [hc] at hlk
    exact absurd hlk (by simp)
  · have hne' : st.chain ≠ [] := by
      rw [hc]
      exact List.cons_ne_nil a rest
    have hfind : st.chain.find? (fun x => x.height = st.height) =
        some (lastOf a rest) := by
      rw [hc]
      refine find?_height_eq_last rest a 0 st.height ?_ ?_
      · rw [hc] at hhf
        exact hhf
      · rw [hc] at hht
        simp only [List.length_cons] at hht
        push_cast at hht ⊢
        omega
    obtain ⟨s, hs, hs0⟩ := hho (lastOf a rest) (by
      rw [hc]
      exact lastOf_mem rest a)
    have htr : jsTruthyHash (lastOf a rest).hash = true := by
      simp [jsTruthyHash, hs, hs0]
    simp only [addBlock, if_neg hne', hfind, htr, eq_self_iff_true, if_true,
      Block.new]
    refine ⟨?_, ?_, ?_, ?_, ?_⟩
    · simp only [List.length_append, List.length_singleton]
      push_cast
      omega
    · refine HeightsFrom_append _ st.chain 0 hhf ?_
      rw [hht]
      push_cast
      omega
    · intro g hg
      refine hhd g ?_
      rw [hc] at hg ⊢
      simpa using hg
    · rw [hc]
      simp only [List.cons_append]
      refine LinkedAfter_append _ rest a ?_ ?_
      · rw [hc] at hlk
        exact hlk
      · exact hs.symm ▸ rfl
    · intro b hb
      rcases List.mem_append.mp hb with hb | hb
      · exact hho b hb
      · refine ⟨hashFn (st.height + 1) now body (lastOf a rest).hash, ?_, ?_⟩
        · simp only [List.mem_singleton] at hb
          rw [hb]
        · exact hne _ _ _ _

theorem strongInv_init (hashFn : HashFn)
    (hne : ∀ h t b p, hashFn h t b p ≠ "") (now : String) :
    StrongInv (addBlock hashFn now { chain := [], height := -1 }
      (Block.new (BlockBody.plain "Genesis Block"))).2 := by
  simp only [addBlock, Block.new, if_pos rfl, List.nil_append]
  refine ⟨by simp, ⟨rfl, trivial⟩, ?_, trivial, ?_⟩
  · intro g hg
    cases hg
    exact ⟨rfl, rfl⟩
  · intro b hb
    cases hb with
    | head => exact ⟨_, rfl, hne _ _ _ _⟩
    | tail _ h => cases h

theorem strongInv_reachable (hashFn : HashFn)
    (hne : ∀ h t b p, hashFn h t b p ≠ "") (st : Blockchain)
    (hr : Reachable hashFn st) : StrongInv st := by
  induction hr with
  | init now => exact strongInv_init hashFn hne now
  | step now body st hr ih => exact strongInv_addBlock hashFn hne now st ih body

theorem HeightsFrom_get :
    ∀ (l : List Block) (k : Int) (i : Nat) (hi : i < l.length),
      HeightsFrom k l → (l.get ⟨i, hi⟩).height = k + i := by
  intro l
  induction l with
  | nil =>
    intro k i hi
    simp at hi
  | cons b rest ih =>
    intro k i hi hh
    cases i with
    | zero => simpa using hh.1
    | succ j =>
      have hj : j < rest.length := by simpa using hi
      have := ih (k + 1) j hj hh.2
      simp only [List.get_cons_succ]
      rw [this]
      push_cast
      ring

theorem linkedAfter_get :
    ∀ (rest : List Block) (a : Block) (i : Nat)
      (hi : i + 1 < (a :: rest).length),
      LinkedAfter a rest →
      ((a :: rest).get ⟨i + 1, hi⟩).previousBlockHash =
        ((a :: rest).get ⟨i, Nat.lt_of_succ_lt hi⟩).hash := by
  intro rest
  induction rest with
  | nil =>
    intro a i hi
    simp at hi
  | cons c rest' ih =>
    intro a i hi hl
    cases i with
    | zero => simpa using hl.1
    | succ j =>
      have hj : j + 1 < (c :: rest').length := by simpa using hi
      simpa using ih c j hj hl.2

theorem linked_get (l : List Block)
    (hl : match l with
          | [] => False
          | a :: rest => LinkedAfter a rest)
    (i : Nat) (hi : i + 1 < l.length) :
    (l.get ⟨i + 1, hi⟩).previousBlockHash =
      (l.get ⟨i, Nat.lt_of_succ_lt hi⟩).hash := by
  match l, hl with
  | a :: rest, hl => exact linkedAfter_get rest a i hi hl

/-- C5: after construction (which admits the genesis block) and any
sequence of admissions of payload-only blocks via `_addBlock`, provided the
digest function never yields the empty string (SHA256 hex digests never
do): the block at every index has that index as its height, the store's
height equals chain length minus one, the genesis block has height 0 and an
absent `previousBlockHash`, and every later block records the hash of the
block before it. -/
theorem chainStore_invariants (hashFn : HashFn)
    (hne : ∀ h t b p, hashFn h t b p ≠ "") (st : Blockchain)
    (hr : Reachable hashFn st) :
    st.height = (st.chain.length : Int) - 1 ∧
    (∀ (i : Nat) (hi : i < st.chain.length),
      (st.chain.get ⟨i, hi⟩).height = (i : Int)) ∧
    (∀ g, st.chain.head? = some g →
      g.height = 0 ∧ g.previousBlockHash = none) ∧
    (∀ (i : Nat) (hi : i + 1 < st.chain.length),
      (st.chain.get ⟨i + 1, hi⟩).previousBlockHash =
        (st.chain.get ⟨i, Nat.lt_of_succ_lt hi⟩).hash) := by
  obtain ⟨hht, hhf, hhd, hlk, hho⟩ := strongInv_reachable hashFn hne st hr
  refine ⟨hht, ?_, hhd, ?_⟩
  · intro i hi
    simpa using HeightsFrom_get st.chain 0 i hi hhf
  · intro i hi
    exact linked_get st.chain hlk i hi

/-- C5 witness: the invariants instantiated at the concrete two-block
reachable store `exSt2`, with both hypotheses discharged concretely. -/
theorem chainStore_invariants_witness :
    (∀ h t b p, exHash h t b p ≠ "") ∧ Reachable exHash exSt2 ∧
    (exSt2.height = (exSt2.chain.length : Int) - 1 ∧
     (∀ (i : Nat) (hi : i < exSt2.chain.length),
       (exSt2.chain.get ⟨i, hi⟩).height = (i : Int)) ∧
     (∀ g, exSt2.chain.head? = some g →
       g.height = 0 ∧ g.previousBlockHash = none) ∧
     (∀ (i : Nat) (hi : i + 1 < exSt2.chain.length),
       (exSt2.chain.get ⟨i + 1, hi⟩).previousBlockHash =
         (exSt2.chain.get ⟨i, Nat.lt_of_succ_lt hi⟩).hash)) :=
  ⟨fun _ _ _ _ => by simp only [exHash]; decide,
   Reachable.step "t1" (BlockBody.plain "payload") _ (Reachable.init "t0"),
   chainStore_invariants exHash (fun _ _ _ _ => by simp only [exHash]; decide) exSt2
     (Reachable.step "t1" (BlockBody.plain "payload") _ (Reachable.init "t0"))⟩

/-- C6: the claim is false on the code.  The message
`"a:-1:starRegistry"` is well-formed (3 colon-separated fields) and its
embedded timestamp parses to `-1`, which is not a positive integer, so the
claim demands an `IncorrectTime` rejection; but `-1` is truthy in
JavaScript and elapsed time `0 - (-1) = 1 < 300`, so the code proceeds past
the time gate and (with a valid signature) resolves with the added
block. -/
theorem submitStar_negative_timestamp_claim_false :
    (jsSplit ':' "a:-1:starRegistry").length = 3 ∧
    js_parseInt ((jsSplit ':' "a:-1:starRegistry").getD 1 "") = some (-1) ∧
    ¬ (0 : Int) < -1 ∧
    (submitStar exHash (fun _ _ _ => true) 0 "t" "a" "a:-1:starRegistry"
      "sig" "star" exSt1).1 ≠ SubmitResult.badTime := by
  decide

/-- C6 (amended): for every well-formed 3-field message, `submitStar`
rejects with `IncorrectTime` exactly when the embedded timestamp fails to
parse, parses to `0`, or the elapsed time (current minus embedded, in
seconds) is at least 300; a parsed nonzero timestamp — negative ones
included — passes the time gate whenever the elapsed time is below 300.
In particular a valid submission at embedded time + 299 is not rejected
for time, and one at embedded time + 300 is. -/
theorem submitStar_time_window (hashFn : HashFn)
    (verify : String → String → String → Bool) (currentTime : Nat)
    (now address message signature star : String) (st : Blockchain)
    (hlen : (jsSplit ':' message).length = 3) :
    ((submitStar hashFn verify currentTime now address message signature
        star st).1 = SubmitResult.badTime ↔
      ∀ m : Int, js_parseInt ((jsSplit ':' message).getD 1 "") = some m →
        m = 0 ∨ 300 ≤ (currentTime : Int) - m) := by
  rcases hp : js_parseInt ((jsSplit ':' message).getD 1 "") with _ | m
  · simp only [submitStar, if_pos hlen, hp]
    simp
  · simp only [submitStar, if_pos hlen, hp]
    by_cases hcond : m ≠ 0 ∧ (currentTime : Int) - m < 300
    · rw [if_pos hcond]
      cases hv : verify message address signature
      · simp only [Bool.false_eq_true, if_false]
        constructor
        · intro hc
          cases hc
        · intro hall
          rcases hall m rfl with h0 | h3
          · exact absurd h0 hcond.1
          · omega
      · simp only [if_true]
        constructor
        · intro hc
          cases hc
        · intro hall
          rcases hall m rfl with h0 | h3
          · exact absurd h0 hcond.1
          · omega
    · rw [if_neg hcond]
      constructor
      · intro _ m' hm'
        cases hm'
        rcases not_and_or.mp hcond with h0 | h3
        · exact Or.inl (by simpa using h0)
        · exact Or.inr (by omega)
      · intro _
        rfl

/-- C6 witness: the amended time-window characterization applied to the
concrete message `"a:100:starRegistry"` at current time 399 (elapsed 299,
inside the window). -/
theorem submitStar_time_window_witness :
    (jsSplit ':' "a:100:starRegistry").length = 3 ∧
    ((submitStar exHash (fun _ _ _ => true) 399 "t" "a" "a:100:starRegistry"
        "sig" "star" exSt1).1 = SubmitResult.badTime ↔
      ∀ m : Int,
        js_parseInt ((jsSplit ':' "a:100:starRegistry").getD 1 "") = some m →
        m = 0 ∨ 300 ≤ ((399 : Nat) : Int) - m) :=
  ⟨by decide,
   submitStar_time_window exHash (fun _ _ _ => true) 399 "t" "a"
     "a:100:starRegistry" "sig" "star" exSt1 (by decide)⟩

/-- C7: `submitStar` rejects with `IncorrectMessageFormat` exactly when
splitting the message on `':'` does not yield exactly 3 fields, for every
signature-verification outcome, every time and every store: the format
check is the outermost gate. -/
theorem submitStar_format_check (hashFn : HashFn)
    (verify : String → String → String → Bool) (currentTime : Nat)
    (now address message signature star : String) (st : Blockchain) :
    (submitStar hashFn verify currentTime now address message signature
        star st).1 = SubmitResult.badFormat ↔
      (jsSplit ':' message).length ≠ 3 := by
  by_cases hlen : (jsSplit ':' message).length = 3
  · rcases hp : js_parseInt ((jsSplit ':' message).getD 1 "") with _ | m
    · simp only [submitStar, if_pos hlen, hp]
      simp [hlen]
    · simp only [submitStar, if_pos hlen, hp]
      by_cases hcond : m ≠ 0 ∧ (currentTime : Int) - m < 300
      · rw [if_pos hcond]
        cases hv : verify message address signature
        · simp [hlen]
        · simp [hlen]
      · rw [if_neg hcond]
        simp [hlen]
  · simp [submitStar, if_neg hlen, hlen]

/-- C8: with a well-formed message, an in-window nonzero parsed timestamp
and a signature the verification primitive rejects, `submitStar` rejects
with `UnverifiedSignature` and leaves the Chain Store exactly as it was:
no block is constructed or appended and the height is untouched. -/
theorem submitStar_badSig_no_mutation (hashFn : HashFn)
    (verify : String → String → String → Bool) (currentTime : Nat)
    (now address message signature star : String) (st : Blockchain)
    (m : Int) (hlen : (jsSplit ':' message).length = 3)
    (hm : js_parseInt ((jsSplit ':' message).getD 1 "") = some m)
    (hm0 : m ≠ 0) (hwin : (currentTime : Int) - m < 300)
    (hv : verify message address signature = false) :
    submitStar hashFn verify currentTime now address message signature
      star st = (SubmitResult.badSig, st) := by
  simp only [submitStar, if_pos hlen, hm, if_pos (And.intro hm0 hwin), hv,
    Bool.false_eq_true, if_false]

/-- C8 witness: a concrete in-window submission whose signature fails
verification leaves the concrete one-block store unchanged. -/
theorem submitStar_badSig_no_mutation_witness :
    (jsSplit ':' "a:95:starRegistry").length = 3 ∧
    js_parseInt ((jsSplit ':' "a:95:starRegistry").getD 1 "") = some 95 ∧
    (95 : Int) ≠ 0 ∧ ((100 : Nat) : Int) - 95 < 300 ∧
    (fun (_ _ _ : String) => false) "a:95:starRegistry" "a" "sig" = false ∧
    submitStar exHash (fun _ _ _ => false) 100 "t" "a" "a:95:starRegistry"
      "sig" "star" exSt1 = (SubmitResult.badSig, exSt1) :=
  ⟨by decide, by decide, by decide, by decide, rfl,
   submitStar_badSig_no_mutation exHash (fun _ _ _ => false) 100 "t" "a"
     "a:95:starRegistry" "sig" "star" exSt1 95 (by decide) (by decide)
     (by decide) (by decide) rfl⟩

/-- C10: the time gate only bounds elapsed time from above: whenever the
embedded second field of a well-formed message parses to an integer
strictly greater than the current time, the elapsed value is negative,
hence below 300, and the submission is never rejected with
`IncorrectTime`. -/
theorem submitStar_future_timestamp_passes (hashFn : HashFn)
    (verify : String → String → String → Bool) (currentTime : Nat)
    (now address message signature star : String) (st : Blockchain)
    (m : Int) (hlen : (jsSplit ':' message).length = 3)
    (hm : js_parseInt ((jsSplit ':' message).getD 1 "") = some m)
    (hfut : (currentTime : Int) < m) :
    (submitStar hashFn verify currentTime now address message signature
        star st).1 ≠ SubmitResult.badTime := by
  have hm0 : m ≠ 0 := by
    have : (0 : Int) ≤ (currentTime : Int) := Int.ofNat_nonneg currentTime
    omega
  have hwin : (currentTime : Int) - m < 300 := by omega
  simp only [submitStar, if_pos hlen, hm, if_pos (And.intro hm0 hwin)]
  rcases verify message address signature
  · simp
  · simp

/-- C10 witness: a message stamped far in the future (year 33658) at
current time 100 is not rejected for time (it is rejected for its
signature instead, with the always-false verifier). -/
theorem submitStar_future_timestamp_passes_witness :
    (jsSplit ':' "a:999999999999:starRegistry").length = 3 ∧
    js_parseInt ((jsSplit ':' "a:999999999999:starRegistry").getD 1 "") =
      some 999999999999 ∧
    ((100 : Nat) : Int) < 999999999999 ∧
    (submitStar exHash (fun _ _ _ => false) 100 "t" "a"
        "a:999999999999:starRegistry" "sig" "star" exSt1).1 ≠
      SubmitResult.badTime :=
  ⟨by decide, by decide, by decide,
   submitStar_future_timestamp_passes exHash (fun _ _ _ => false) 100 "t"
     "a" "a:999999999999:starRegistry" "sig" "star" exSt1 999999999999
     (by decide) (by decide) (by decide)⟩

/-- C9: `getStarsByWalletAddress` resolves with exactly the collection of
owner/star pairs contributed by the blocks whose decoded payload's address
matches the queried one — membership characterization (set semantics), for
every decoder, address and chain; blocks that fail to decode are skipped
without aborting the scan. -/
theorem getStarsByWalletAddress_spec (getBData : Block → Option BData)
    (address : String) (st : Blockchain) (p : StarRecord) :
    p ∈ getStarsByWalletAddress getBData address st ↔
      ∃ b ∈ st.chain, ∃ d, getBData b = some d ∧ d.address = some address ∧
        p = { owner := address, star := d.star } := by
  show p ∈ collectStars getBData address st.chain ↔ _
  induction st.chain with
  | nil => simp [collectStars]
  | cons b rest ih =>
    rcases hd : getBData b with _ | d
    · simp only [collectStars, hd, ih, List.mem_cons]
      constructor
      · rintro ⟨c, hc, hrest⟩
        exact ⟨c, Or.inr hc, hrest⟩
      · rintro ⟨c, hc | hc, d', hd', hda, hp⟩
        · rw [hc] at hd'
          rw [hd] at hd'
          cases hd'
        · exact ⟨c, hc, d', hd', hda, hp⟩
    · by_cases hda : d.address = some address
      · simp only [collectStars, hd, if_pos hda, List.mem_cons, ih]
        constructor
        · rintro (hp | ⟨c, hc, hrest⟩)
          · exact ⟨b, Or.inl rfl, d, hd, hda, hp⟩
          · exact ⟨c, Or.inr hc, hrest⟩
        · rintro ⟨c, hc | hc, d', hd', hda', hp⟩
          · rw [hc] at hd'
            rw [hd] at hd'
            cases hd'
            exact Or.inl hp
          · exact Or.inr ⟨c, hc, d', hd', hda', hp⟩
      · simp only [collectStars, hd, if_neg hda, ih]
        constructor
        · rintro ⟨c, hc, hrest⟩
          exact ⟨c, List.mem_cons_of_mem b hc, hrest⟩
        · rintro ⟨c, hc, d', hd', hda', hp⟩
          rcases List.mem_cons.mp hc with hc | hc
          · rw [hc] at hd'
            rw [hd] at hd'
            cases hd'
            exact absurd hda' hda
          · exact ⟨c, hc, d', hd', hda', hp⟩

/-- C3: at a chain holding one block whose stored hash differs from its
recomputed digest, `validateChain` rejects the promise with the error log
(`ValidateResult.rejected`), instead of resolving with the accumulated list
as the claim and the method's own doc comment state. -/
theorem validateChain_rejects_with_errorLog :
    validateChain exHash { chain := [exTampered], height := 0 } =
      ValidateResult.rejected [Discrepancy.tampered exTampered] := by
  decide
